import Mathlib

/-!
# Florence municipality press scraper — verification development

Shallow embedding of the crawl-and-persist pipeline:

* `extract_links.py` — list-phase: `extract_comunicato_id`,
  `extract_communication_data`, `save_page_to_sqlite` over the SQLite table
  `press_releases (id INTEGER PRIMARY KEY, url, title, date, content)`.
* `extract_content.py` — backfill phase: `extract_page_content` (bounded-retry
  fetch) and `update_press_release_content` (batched backfill loop).

The SQLite table is modelled as a list of rows kept in primary-key (= rowid)
order, which is the order in which SQLite's table scan returns rows for a
`SELECT` without `ORDER BY`.  `INSERT OR IGNORE` is an ordered insert that is
a no-op when the key is already present.  Network I/O (HTTP responses, parsed
HTML) is abstracted into explicit oracle parameters; the unbounded `while`
loops are modelled with an explicit fuel parameter, and the theorems exhibit
a sufficient fuel at which the loop reaches its own exit condition.
-/

/-- A row of the `press_releases` table.  `content` is `none` while the
backfill phase has not yet succeeded for this id. -/
structure Row where
  id : Nat
  url : String
  title : String
  date : String
  content : Option String
deriving Repr, DecidableEq

/-- The persisted store: the `press_releases` table as the ordered list of its
rows (SQLite table-scan order, i.e. ascending `id` = rowid). -/
abbrev Store := List Row

/-- The store invariant maintained by the pipeline: rows are in strictly
ascending `id` order (ids unique, scan order deterministic). -/
abbrev StoreSorted (s : Store) : Prop := s.Pairwise (fun a b => a.id < b.id)

/-! ## `extract_comunicato_id` (extract_links.py, lines 65-78)

`re.search(r'/comunicato/(\d+)', url)`: scan positions left to right; at the
first position where the literal `/comunicato/` is followed by at least one
digit, take the maximal digit run and convert it to an integer. -/

/-- Maximal leading digit run of a character list (the greedy `\d+`). -/
def leadingDigits : List Char → List Char
  | [] => []
  | c :: cs => if c.isDigit then c :: leadingDigits cs else []

/-- Decimal value of a digit run (Python `int`). -/
def digitsToNat (ds : List Char) : Nat :=
  ds.foldl (fun acc c => acc * 10 + (c.toNat - 48)) 0

/-- The pattern `/comunicato/` as characters. -/
def comunicatoPat : List Char := "/comunicato/".toList

/-- Does `r'/comunicato/(\d+)'` match at the start of `cs`?  If so, return the
value of the digit group. -/
def matchComunicatoAt (cs : List Char) : Option Nat :=
  if comunicatoPat.isPrefixOf cs then
    let ds := leadingDigits (cs.drop comunicatoPat.length)
    if ds = [] then none else some (digitsToNat ds)
  else none

/-- `re.search`: try the pattern at each position, left to right. -/
def searchComunicato : List Char → Option Nat
  | [] => none
  | c :: cs =>
    match matchComunicatoAt (c :: cs) with
    | some n => some n
    | none => searchComunicato cs

/-- `extract_comunicato_id(url)` (extract_links.py:65-78): the integer after
the first `/comunicato/<digits>` occurrence, else `None`. -/
def extract_comunicato_id (url : String) : Option Nat :=
  searchComunicato url.toList

/-! ## `save_page_to_sqlite` (extract_links.py, lines 119-170) -/

/-- A discovered record, as produced by `extract_communication_data`:
a dictionary with keys `url`, `title`, `date`. -/
structure Item where
  url : String
  title : String
  date : String
deriving Repr, DecidableEq

/-- `INSERT OR IGNORE INTO press_releases ... VALUES (id, url, title, date,
content)`: ordered insert into the rowid b-tree; a no-op when a row with the
same primary key already exists. -/
def insertRow (r : Row) : Store → Store
  | [] => [r]
  | x :: xs =>
    if r.id < x.id then r :: x :: xs
    else if r.id = x.id then x :: xs
    else x :: insertRow r xs

/-- Python truthiness of `extract_comunicato_id(item['url'])`: both `None`
and `0` are falsy, so both are skipped by `if comunicato_id:`. -/
def item_id_truthy (item : Item) : Bool :=
  match extract_comunicato_id item.url with
  | some n => n != 0
  | none => false

/-- The loop body of `save_page_to_sqlite` (extract_links.py:145-152): extract
the id from the item's url; if the id is truthy, execute `INSERT OR IGNORE`
with `content = NULL` and increment `saved_count` (the counter is incremented
whether or not the insert was ignored). -/
def saveStep (acc : Store × Nat) (item : Item) : Store × Nat :=
  match extract_comunicato_id item.url with
  | some cid =>
    if cid ≠ 0 then
      (insertRow ⟨cid, item.url, item.title, item.date, none⟩ acc.1, acc.2 + 1)
    else acc
  | none => acc

/-- `save_page_to_sqlite(data, conn)` (extract_links.py:119-170): run the loop
body over the page's items.  Returns the final store and the returned
`saved_count`. -/
def save_page_to_sqlite (data : List Item) (s : Store) : Store × Nat :=
  data.foldl saveStep (s, 0)

example : extract_comunicato_id "https://x/comunicato/12345" = some 12345 := by decide
example : extract_comunicato_id "https://x/other/12345" = none := by decide
example : extract_comunicato_id "https://x/comunicato/x/comunicato/7" = some 7 := by decide
example : extract_comunicato_id "" = none := by decide

/-! ## `extract_page_content` (extract_content.py, lines 8-53)

The outcome of one `session.get(url)` attempt is abstracted: a success
carries the result of looking up the `view-content` div in the fetched page
(`some text` when the container is present, `none` when it is absent); a
non-200 status or a raised exception is an attempt failure that the loop
retries after a fixed 2-second sleep. -/

/-- Outcome of one HTTP attempt.  `ok c` is a 200 response whose parsed body
has `view-content` text `c` (`none` = container absent); `badStatus` is a
non-200 response; `exn` is a raised network exception (caught by the code's
`except` clause). -/
inductive FetchOutcome where
  | ok (container : Option String)
  | badStatus (code : Nat)
  | exn (msg : String)
deriving Repr, DecidableEq

/-- Is the outcome an attempt failure (retried by the loop)? -/
def isFailOutcome : FetchOutcome → Bool
  | .ok _ => false
  | .badStatus _ => true
  | .exn _ => true

/-- The retry loop of `extract_page_content` over a list of attempt outcomes:
returns the returned value, the number of attempts performed, and the list of
`time.sleep` durations executed.  A 200 response returns immediately (the
container text, or `None` when the container is absent); any failure sleeps
2 seconds and retries; an exhausted list is the loop falling through to the
final `return None`. -/
def run_fetch : List FetchOutcome → Option String × Nat × List Nat
  | [] => (none, 0, [])
  | o :: rest =>
    match o with
    | .ok container => (container, 1, [])
    | .badStatus _ => ((run_fetch rest).1, (run_fetch rest).2.1 + 1, 2 :: (run_fetch rest).2.2)
    | .exn _ => ((run_fetch rest).1, (run_fetch rest).2.1 + 1, 2 :: (run_fetch rest).2.2)

/-- `extract_page_content(url, max_retries, timeout)` (extract_content.py:8-53)
with the network abstracted into `attempts` (the outcome of the i-th attempt):
the value returned across the function's boundary. -/
def extract_page_content (attempts : Nat → FetchOutcome) (max_retries : Nat) : Option String :=
  (run_fetch ((List.range max_retries).map attempts)).1

/-! ## `update_press_release_content` (extract_content.py, lines 55-131) -/

/-- `SELECT id, url FROM press_releases WHERE content IS NULL LIMIT ?`
(extract_content.py:83-88): the table scan returns rows in rowid (= id)
order; the `WHERE` keeps the content-missing ones; `LIMIT` truncates. -/
def list_missing_content (s : Store) (lim : Nat) : List Row :=
  (s.filter (fun r => r.content.isNone)).take lim

/-- Python truthiness of the value returned by `extract_page_content`:
`None` and the empty string are falsy (`if content:`). -/
def truthyContent : Option String → Bool
  | none => false
  | some c => c != ""

/-- `UPDATE press_releases SET content = ? WHERE id = ?`
(extract_content.py:100-103). -/
def set_content (s : Store) (id0 : Nat) (c : String) : Store :=
  s.map (fun r => if r.id = id0 then { r with content := some c } else r)

/-- Python truthiness of the `limit` argument: `None` and `0` are falsy, so
`if limit and ...` takes the no-limit path for both. -/
def limTruthy : Option Nat → Bool
  | none => false
  | some n => n != 0

/-- `batch_size = 5` (extract_content.py:70). -/
def batch_size : Nat := 5

/-- The inner `for release_id, url in entries:` loop
(extract_content.py:94-117): fetch each entry's page (through the oracle),
update the row when the extracted content is truthy, count it as processed,
and break out early when the `limit` cap is reached.  Returns the store, the
updated count, the processed count, the visited-id trace, and whether the
`break` fired. -/
def process_entries (oracle : String → Option String) (limit : Option Nat) :
    List Row → Store → Nat → Nat → List Nat → Store × Nat × Nat × List Nat × Bool
  | [], s, updated, total, visited => (s, updated, total, visited, false)
  | e :: rest, s, updated, total, visited =>
    if limTruthy limit && decide (limit.getD 0 ≤ total + 1) then
      ((if truthyContent (oracle e.url) then
          set_content s e.id ((oracle e.url).getD "") else s),
       (if truthyContent (oracle e.url) then updated + 1 else updated),
       total + 1, visited ++ [e.id], true)
    else
      process_entries oracle limit rest
        (if truthyContent (oracle e.url) then
          set_content s e.id ((oracle e.url).getD "") else s)
        (if truthyContent (oracle e.url) then updated + 1 else updated)
        (total + 1) (visited ++ [e.id])

/-- `current_batch_size` (extract_content.py:77-81): shrink the batch on the
last round before the cap; otherwise the fixed `batch_size`. -/
def current_batch_size (limit : Option Nat) (total : Nat) : Nat :=
  if limTruthy limit && decide (limit.getD 0 < total + batch_size) then limit.getD 0 - total
  else batch_size

/-- The `while True:` loop of `update_press_release_content`
(extract_content.py:74-121), modelled with fuel: pull the first
`current_batch_size` content-missing rows, stop when the pull is empty,
otherwise process the batch (stopping if its `break` fired) and loop. -/
def backfill_loop (oracle : String → Option String) (limit : Option Nat) :
    Nat → Store → Nat → Nat → List Nat → Store × Nat × Nat × List Nat
  | 0, s, updated, total, visited => (s, updated, total, visited)
  | fuel + 1, s, updated, total, visited =>
    if (list_missing_content s (current_batch_size limit total)).isEmpty then
      (s, updated, total, visited)
    else
      if (process_entries oracle limit (list_missing_content s (current_batch_size limit total))
            s updated total visited).2.2.2.2 then
        ((process_entries oracle limit (list_missing_content s (current_batch_size limit total))
            s updated total visited).1,
         (process_entries oracle limit (list_missing_content s (current_batch_size limit total))
            s updated total visited).2.1,
         (process_entries oracle limit (list_missing_content s (current_batch_size limit total))
            s updated total visited).2.2.1,
         (process_entries oracle limit (list_missing_content s (current_batch_size limit total))
            s updated total visited).2.2.2.1)
      else
        backfill_loop oracle limit fuel
          (process_entries oracle limit (list_missing_content s (current_batch_size limit total))
            s updated total visited).1
          (process_entries oracle limit (list_missing_content s (current_batch_size limit total))
            s updated total visited).2.1
          (process_entries oracle limit (list_missing_content s (current_batch_size limit total))
            s updated total visited).2.2.1
          (process_entries oracle limit (list_missing_content s (current_batch_size limit total))
            s updated total visited).2.2.2.1

/-- `update_press_release_content(db_file, limit)` (extract_content.py:55-131)
with page fetching abstracted into `oracle` (url ↦ extracted content) and the
unbounded loop given explicit fuel.  Returns the final store, the returned
`updated_count`, the processed count, and the trace of visited row ids. -/
def update_press_release_content (oracle : String → Option String) (limit : Option Nat)
    (fuel : Nat) (s : Store) : Store × Nat × Nat × List Nat :=
  backfill_loop oracle limit fuel s 0 0 []

/-! ## `extract_communication_data` (extract_links.py, lines 11-63)

`datetime.strptime(date_text, '%Y-%m-%dT%H:%M:%SZ')` is modelled after
CPython's `_strptime`: `%Y` is exactly four digits; `%m`, `%d`, `%H`, `%M`,
`%S` are one- or two-digit fields (with the per-directive value ranges of
`_strptime`'s regexes); literal separators match case-insensitively; the whole
string must be consumed; and the resulting calendar date / time must be valid
(`datetime` raises `ValueError` otherwise, e.g. for February 30 or second 60).
In this format every numeric field is followed by a non-digit literal (or the
end of the string), so the regex consumes each field's entire digit run and
the match is deterministic. -/

/-- A parsed `%Y-%m-%dT%H:%M:%SZ` timestamp. -/
structure Timestamp where
  year : Nat
  month : Nat
  day : Nat
  hour : Nat
  minute : Nat
  second : Nat
deriving Repr, DecidableEq

/-- Parse a one- or two-digit numeric directive: the field consumes the whole
leading digit run (the following pattern character is never a digit); a
one-digit run must lie in `[lo1, hi1]`, a two-digit run in `[lo2, hi2]`. -/
def parseField2 (lo1 hi1 lo2 hi2 : Nat) (cs : List Char) : Option (Nat × List Char) :=
  let run := leadingDigits cs
  let rest := cs.drop run.length
  if run.length = 1 then
    let v := digitsToNat run
    if lo1 ≤ v ∧ v ≤ hi1 then some (v, rest) else none
  else if run.length = 2 then
    let v := digitsToNat run
    if lo2 ≤ v ∧ v ≤ hi2 then some (v, rest) else none
  else none

/-- Parse `%Y`: exactly four digits. -/
def parseYear4 (cs : List Char) : Option (Nat × List Char) :=
  match cs with
  | c1 :: c2 :: c3 :: c4 :: rest =>
    if c1.isDigit && c2.isDigit && c3.isDigit && c4.isDigit then
      some (digitsToNat [c1, c2, c3, c4], rest)
    else none
  | _ => none

/-- Match a literal format character (case-insensitively, as `_strptime`
compiles its regex with `IGNORECASE`). -/
def parseLit (c : Char) (cs : List Char) : Option (List Char) :=
  match cs with
  | [] => none
  | x :: xs => if x.toLower = c.toLower then some xs else none

/-- Day count of a month in the proleptic Gregorian calendar used by
`datetime.date`. -/
def daysInMonth (y m : Nat) : Nat :=
  if m = 2 then
    if y % 4 = 0 ∧ (y % 100 ≠ 0 ∨ y % 400 = 0) then 29 else 28
  else if m = 4 ∨ m = 6 ∨ m = 9 ∨ m = 11 then 30
  else 31

/-- `datetime.strptime(s, '%Y-%m-%dT%H:%M:%SZ')`: `some` the parsed timestamp,
`none` when it raises `ValueError` (regex mismatch, unconverted trailing data,
or an out-of-range date/time component). -/
def strptimeTs (s : String) : Option Timestamp :=
  match parseYear4 s.toList with
  | none => none
  | some (y, cs1) =>
    match parseLit '-' cs1 with
    | none => none
    | some cs2 =>
      match parseField2 1 9 1 12 cs2 with
      | none => none
      | some (mo, cs3) =>
        match parseLit '-' cs3 with
        | none => none
        | some cs4 =>
          match parseField2 1 9 1 31 cs4 with
          | none => none
          | some (d, cs5) =>
            match parseLit 'T' cs5 with
            | none => none
            | some cs6 =>
              match parseField2 0 9 0 23 cs6 with
              | none => none
              | some (h, cs7) =>
                match parseLit ':' cs7 with
                | none => none
                | some cs8 =>
                  match parseField2 0 9 0 59 cs8 with
                  | none => none
                  | some (mi, cs9) =>
                    match parseLit ':' cs9 with
                    | none => none
                    | some cs10 =>
                      match parseField2 0 9 0 61 cs10 with
                      | none => none
                      | some (sec, cs11) =>
                        match parseLit 'Z' cs11 with
                        | none => none
                        | some cs12 =>
                          if cs12 = [] ∧ 1 ≤ y ∧ d ≤ daysInMonth y mo ∧ sec ≤ 59 then
                            some ⟨y, mo, d, h, mi, sec⟩
                          else none

/-- Zero-pad a number to two digits (`%m`, `%d` in `strftime`). -/
def pad2 (n : Nat) : String :=
  if n < 10 then "0" ++ toString n else toString n

/-- `date_obj.strftime('%Y-%m-%d')` (glibc prints `%Y` unpadded). -/
def strftimeDate (t : Timestamp) : String :=
  toString t.year ++ "-" ++ pad2 t.month ++ "-" ++ pad2 t.day

/-- The date-formatting branch of `extract_communication_data`
(extract_links.py:40-47): `date_text` is `''` when the timestamp element is
absent; a nonempty `date_text` is reformatted when `strptime` succeeds and
kept raw when it raises `ValueError`. -/
def format_date_text (date_text : String) : String :=
  if date_text = "" then ""
  else
    match strptimeTs date_text with
    | some dt => strftimeDate dt
    | none => date_text

/-- One `li.views-row` list entry, reduced to the features the code reads:
the `datetime` attribute of the `<time>` element inside the date span
(`none` when the span or the `<time>` is absent), and the `(href, text)` of
the `<a>` inside the title span (`none` when either is absent). -/
structure RawItem where
  datetime : Option String
  link : Option (String × String)
deriving Repr, DecidableEq

/-- A yielded record: the dictionary appended to `communications`. -/
structure Comm where
  url : String
  title : String
  date : String
deriving Repr, DecidableEq

/-- `extract_communication_data(html_content, base_url)`
(extract_links.py:11-63) with the parsed markup abstracted: `page` is the
`view-content` container (`none` when absent) holding the list entries, and
`urljoin` is `urllib.parse.urljoin`, kept abstract as a parameter.  Per entry:
compute the formatted date; when the title link is present, yield the record
with the absolute url, the stripped anchor text, and that date. -/
def extract_communication_data (urljoin : String → String → String)
    (page : Option (List RawItem)) (base_url : String) : List Comm :=
  match page with
  | none => []
  | some items =>
    items.foldr (fun item acc =>
      let date_text := item.datetime.getD ""
      let date_formatted := format_date_text date_text
      match item.link with
      | some (href, txt) => ⟨urljoin base_url href, txt.trim, date_formatted⟩ :: acc
      | none => acc) []

/-- The per-entry date, written as the spec states it: reformatted when the
timestamp parses as `%Y-%m-%dT%H:%M:%SZ`, kept raw when reformatting fails,
empty when the timestamp element is absent. -/
def date_per_spec : Option String → String
  | none => ""
  | some ts =>
    match strptimeTs ts with
    | some dt => strftimeDate dt
    | none => ts

example : format_date_text "2024-01-01T10:30:00Z" = "2024-01-01" := by decide
example : format_date_text "not-a-date" = "not-a-date" := by decide
example : format_date_text "2024-02-30T00:00:00Z" = "2024-02-30T00:00:00Z" := by decide
example : format_date_text "2024-12-31T23:59:59Z" = "2024-12-31" := by decide
example : format_date_text "" = "" := by decide

/-! ## Derived observations on the store -/

/-- The row with primary key `id0`, if any (first scan hit). -/
def rowById (s : Store) (id0 : Nat) : Option Row :=
  s.find? (fun r => r.id == id0)

/-- The `content` column of the row with primary key `id0`: `none` when the
row is absent, `some c` its content column when present. -/
def rowContent (s : Store) (id0 : Nat) : Option (Option String) :=
  (rowById s id0).map Row.content

/-- The effect on the store of processing a list of selected entries with no
row cap: each entry whose fetched content is truthy gets its row updated. -/
def applyEntries (oracle : String → Option String) : List Row → Store → Store
  | [], s => s
  | e :: rest, s =>
    applyEntries oracle rest
      (if truthyContent (oracle e.url) then set_content s e.id ((oracle e.url).getD "") else s)

/-- The store in which every content-missing row has been completed with its
fetched content: the final state of an exhaustive backfill run. -/
def completeAll (oracle : String → Option String) (s : Store) : Store :=
  s.map (fun r =>
    if r.content.isNone then { r with content := some ((oracle r.url).getD "") } else r)

/-- Row-level view of one no-cap batch: a row is updated exactly when some
selected entry carries its id (entry ids are unique within a batch). -/
def updFor (oracle : String → Option String) (es : List Row) (r : Row) : Row :=
  match es.find? (fun e => e.id == r.id) with
  | some e => { r with content := some ((oracle e.url).getD "") }
  | none => r

/-! # Theorems -/

/-! ## C8 — id extraction -/

lemma matchComunicatoAt_nil : matchComunicatoAt [] = none := by decide

lemma searchComunicato_eq_none_iff (cs : List Char) :
    searchComunicato cs = none ↔ ∀ i, matchComunicatoAt (cs.drop i) = none := by
  induction cs with
  | nil =>
    simp only [searchComunicato, List.drop_nil, matchComunicatoAt_nil, true_iff]
    intro i
    simp [List.drop_nil, matchComunicatoAt_nil]
  | cons c cs ih =>
    constructor
    · intro h i
      rw [searchComunicato] at h
      cases hm : matchComunicatoAt (c :: cs) with
      | some n => rw [hm] at h; exact absurd h (by simp)
      | none =>
        rw [hm] at h
        cases i with
        | zero => simpa using hm
        | succ j => rw [List.drop_succ_cons]; exact (ih.mp h) j
    · intro h
      rw [searchComunicato]
      have h0 := h 0
      simp only [List.drop_zero] at h0
      rw [h0]
      exact ih.mpr (fun i => by simpa [List.drop_succ_cons] using h (i + 1))

lemma searchComunicato_eq_some_first (cs : List Char) (n : Nat)
    (h : searchComunicato cs = some n) :
    ∃ i, matchComunicatoAt (cs.drop i) = some n ∧
      ∀ j, j < i → matchComunicatoAt (cs.drop j) = none := by
  induction cs with
  | nil => exact absurd h (by simp [searchComunicato])
  | cons c cs ih =>
    rw [searchComunicato] at h
    cases hm : matchComunicatoAt (c :: cs) with
    | some m =>
      rw [hm] at h
      refine ⟨0, ?_, fun j hj => absurd hj (Nat.not_lt_zero j)⟩
      simpa [hm] using h
    | none =>
      rw [hm] at h
      obtain ⟨i, hmatch, hmin⟩ := ih h
      refine ⟨i + 1, by simpa [List.drop_succ_cons] using hmatch, fun j hj => ?_⟩
      cases j with
      | zero => simpa using hm
      | succ k => simpa [List.drop_succ_cons] using hmin k (Nat.lt_of_succ_lt_succ hj)

/-- C8.  `extract_comunicato_id` returns `none` exactly when no position of
the url matches `/comunicato/<digits>`; when it returns `some n`, `n` is the
integer value of the digits at the first matching position; in particular
`extract_comunicato_id "https://x/comunicato/12345" = some 12345` and
`extract_comunicato_id "https://x/other/12345"` is absent. -/
theorem extract_comunicato_id_first_occurrence :
    (∀ url : String, extract_comunicato_id url = none ↔
      ∀ i, matchComunicatoAt (url.toList.drop i) = none) ∧
    (∀ url : String, ∀ n, extract_comunicato_id url = some n →
      ∃ i, matchComunicatoAt (url.toList.drop i) = some n ∧
        ∀ j, j < i → matchComunicatoAt (url.toList.drop j) = none) ∧
    extract_comunicato_id "https://x/comunicato/12345" = some 12345 ∧
    extract_comunicato_id "https://x/other/12345" = none := by
  refine ⟨fun url => searchComunicato_eq_none_iff url.toList,
    fun url n h => searchComunicato_eq_some_first url.toList n h, by decide, by decide⟩

/-- C8 witness: the characterization applied at a concrete url. -/
theorem extract_comunicato_id_first_occurrence_witness :
    ∃ i, matchComunicatoAt (("https://x/comunicato/7").toList.drop i) = some 7 ∧
      ∀ j, j < i → matchComunicatoAt (("https://x/comunicato/7").toList.drop j) = none :=
  extract_comunicato_id_first_occurrence.2.1 "https://x/comunicato/7" 7 (by decide)

/-! ## C2 / C3 — fetch result and retry bound -/

lemma run_fetch_all_fail (l : List FetchOutcome) (h : ∀ o ∈ l, isFailOutcome o = true) :
    run_fetch l = (none, l.length, List.replicate l.length 2) := by
  induction l with
  | nil => rfl
  | cons o rest ih =>
    have hrest := ih (fun x hx => h x (List.mem_cons_of_mem o hx))
    cases o with
    | ok c => exact absurd (h (FetchOutcome.ok c) (List.mem_cons_self _ _)) (by simp [isFailOutcome])
    | badStatus code => simp [run_fetch, hrest, List.replicate_succ]
    | exn msg => simp [run_fetch, hrest, List.replicate_succ]

lemma run_fetch_first_ok (l1 l2 : List FetchOutcome) (b : Option String)
    (h : ∀ o ∈ l1, isFailOutcome o = true) :
    run_fetch (l1 ++ FetchOutcome.ok b :: l2) = (b, l1.length + 1, List.replicate l1.length 2) := by
  induction l1 with
  | nil => simp [run_fetch]
  | cons o rest ih =>
    have hrest := ih (fun x hx => h x (List.mem_cons_of_mem o hx))
    cases o with
    | ok c => exact absurd (h (FetchOutcome.ok c) (List.mem_cons_self _ _)) (by simp [isFailOutcome])
    | badStatus code => simp [run_fetch, hrest, List.replicate_succ]
    | exn msg => simp [run_fetch, hrest, List.replicate_succ]

/-- C2 counterexample.  The claim says the result distinguishes "page fetched
but the container is absent" from "fetch failed terminally after exhausting
retries" and carries the url and last status in the failure case.  In the
code both cases return the bare `None`: a run whose first attempt succeeds
with no `view-content` container and a run whose three attempts all fail
produce the identical result, so callers cannot branch on which occurred. -/
theorem extract_page_content_conflates_outcomes :
    extract_page_content (fun _ => FetchOutcome.ok none) 3 = none ∧
    extract_page_content (fun _ => FetchOutcome.badStatus 404) 3 = none ∧
    extract_page_content (fun _ => FetchOutcome.ok none) 3 =
      extract_page_content (fun _ => FetchOutcome.badStatus 404) 3 := by
  refine ⟨by decide, by decide, by decide⟩

/-- C2 (amended).  `extract_page_content` returns the container text when an
attempt succeeds with the container present, and returns `None` both when a
fetched page lacks the container and when every attempt fails — the returned
value does not distinguish the two outcomes and carries no url or status
(the distinction exists only in log output).  It never raises across its
boundary: every attempt outcome, exceptions included, is mapped to a
returned value. -/
theorem extract_page_content_value :
    (∀ (l1 l2 : List FetchOutcome) (b : Option String),
      (∀ o ∈ l1, isFailOutcome o = true) →
      run_fetch (l1 ++ FetchOutcome.ok b :: l2) = (b, l1.length + 1, List.replicate l1.length 2)) ∧
    (∀ (attempts : Nat → FetchOutcome) (m : Nat),
      (∀ j, j < m → isFailOutcome (attempts j) = true) →
      extract_page_content attempts m = none) ∧
    (∀ (attempts : Nat → FetchOutcome) (m : Nat),
      extract_page_content attempts m = (run_fetch ((List.range m).map attempts)).1) := by
  refine ⟨run_fetch_first_ok, fun attempts m h => ?_, fun attempts m => rfl⟩
  have hall : ∀ o ∈ (List.range m).map attempts, isFailOutcome o = true := by
    intro o ho
    obtain ⟨j, hj, rfl⟩ := List.mem_map.mp ho
    exact h j (List.mem_range.mp hj)
  rw [extract_page_content, run_fetch_all_fail _ hall]

/-- C2 witness: the amended theorem applied to a concrete run — one failing
attempt, then a success whose container text is returned. -/
theorem extract_page_content_value_witness :
    run_fetch [FetchOutcome.badStatus 500, FetchOutcome.ok (some "x")] =
      (some "x", 2, [2]) := by
  have h := extract_page_content_value.1 [FetchOutcome.badStatus 500] []
    (some "x") (by decide)
  simpa using h

/-- C3.  With `max_retries = m ≥ 1` attempts all failing (non-success status
or raised exception), `extract_page_content` performs exactly `m` attempts,
sleeps the fixed 2-second delay after each failed attempt, and then returns
the terminal failure value `None`; exceptions are absorbed by the loop, never
propagated (each attempt outcome, `exn` included, yields a returned value). -/
theorem extract_page_content_retry_bound (attempts : Nat → FetchOutcome) (m : Nat)
    (_hm : 1 ≤ m) (hfail : ∀ i, i < m → isFailOutcome (attempts i) = true) :
    run_fetch ((List.range m).map attempts) = (none, m, List.replicate m 2) ∧
    extract_page_content attempts m = none := by
  have hall : ∀ o ∈ (List.range m).map attempts, isFailOutcome o = true := by
    intro o ho
    obtain ⟨j, hj, rfl⟩ := List.mem_map.mp ho
    exact hfail j (List.mem_range.mp hj)
  have h := run_fetch_all_fail _ hall
  simp only [List.length_map, List.length_range] at h
  exact ⟨h, by rw [extract_page_content, h]⟩

/-- C3 witness: three attempts against an endpoint that always returns 500 —
exactly three attempts, three fixed delays, and the value `None`. -/
theorem extract_page_content_retry_bound_witness :
    run_fetch ((List.range 3).map (fun _ => FetchOutcome.badStatus 500)) =
      (none, 3, List.replicate 3 2) ∧
    extract_page_content (fun _ => FetchOutcome.badStatus 500) 3 = none :=
  extract_page_content_retry_bound (fun _ => FetchOutcome.badStatus 500) 3
    (by decide) (fun i _ => rfl)

/-! ## C10 — records whose extracted id is 0 are dropped by truthiness -/

/-- C10.  A record whose url yields the extracted id `0` (the pattern
`/comunicato/0` matched) is neither inserted nor counted by
`save_page_to_sqlite`: the code tests the id with Python truthiness
(`if comunicato_id:`), and `0` is falsy, even though the id pattern matched. -/
theorem save_page_drops_zero_id (s : Store) (item : Item)
    (h : extract_comunicato_id item.url = some 0) :
    save_page_to_sqlite [item] s = (s, 0) ∧
    extract_comunicato_id "https://x/comunicato/0" = some 0 := by
  constructor
  · simp [save_page_to_sqlite, saveStep, h]
  · decide

/-- C10 witness: a concrete record whose url matches `/comunicato/0` is
dropped from an empty store with a returned count of 0. -/
theorem save_page_drops_zero_id_witness :
    save_page_to_sqlite [⟨"https://x/comunicato/0", "T", "2024-01-01"⟩] [] = ([], 0) :=
  (save_page_drops_zero_id [] ⟨"https://x/comunicato/0", "T", "2024-01-01"⟩ (by decide)).1

/-! ## C5 — the returned count of `save_page_to_sqlite` -/

lemma foldl_saveStep_count (data : List Item) :
    ∀ p : Store × Nat, (data.foldl saveStep p).2 = p.2 + data.countP item_id_truthy := by
  induction data with
  | nil => intro p; simp
  | cons item rest ih =>
    intro p
    rw [List.foldl_cons, ih (saveStep p item), List.countP_cons]
    have hstep : (saveStep p item).2 = p.2 + (if item_id_truthy item then 1 else 0) := by
      unfold saveStep item_id_truthy
      cases hid : extract_comunicato_id item.url with
      | none => simp
      | some n =>
        by_cases hn : n = 0
        · subst hn; simp
        · simp [hn]
    rw [hstep]
    by_cases ht : item_id_truthy item
    · simp [ht]; omega
    · simp [ht]

/-- C5 counterexample.  The claim says the returned count equals the number
of rows actually inserted, a record whose id already exists contributing 0.
Saving a record for id 100 into a store that already holds row 100 leaves
the store unchanged (0 rows inserted) yet returns the count 1: the code
increments `saved_count` for every executed `INSERT OR IGNORE`, ignored or
not. -/
theorem save_page_count_counterexample :
    save_page_to_sqlite [⟨"https://x/comunicato/100", "B", "2024-01-02"⟩]
        [⟨100, "https://x/comunicato/100", "A", "2024-01-01", none⟩] =
      ([⟨100, "https://x/comunicato/100", "A", "2024-01-01", none⟩], 1) := by
  decide

/-- C5 (amended).  The count returned by `save_page_to_sqlite` equals the
number of records whose url yields a truthy (nonzero) extracted id — the
number of `INSERT OR IGNORE` statements executed — not the number of rows
actually inserted: a record whose external id already exists still
contributes 1 to the count. -/
theorem save_page_count (data : List Item) (s : Store) :
    (save_page_to_sqlite data s).2 = data.countP item_id_truthy := by
  rw [save_page_to_sqlite, foldl_saveStep_count data (s, 0)]
  simp

/-! ## C6 — batch selection of content-missing rows -/

/-- C6.  Each batch selection performed by the backfill
(`SELECT id, url FROM press_releases WHERE content IS NULL LIMIT ?`) returns
only rows whose content is null, at most `lim` of them, and — the table scan
following primary-key order — in deterministic ascending-id order. -/
theorem list_missing_content_spec (s : Store) (lim : Nat) (hs : StoreSorted s) :
    (∀ r ∈ list_missing_content s lim, r.content = none) ∧
    (list_missing_content s lim).length ≤ lim ∧
    (list_missing_content s lim).Pairwise (fun a b => a.id < b.id) := by
  refine ⟨fun r hr => ?_, List.length_take_le lim _, ?_⟩
  · have hmem := List.mem_of_mem_take hr
    have := List.of_mem_filter hmem
    exact Option.isNone_iff_eq_none.mp this
  · exact List.Pairwise.sublist ((List.take_sublist lim _).trans (List.filter_sublist s)) hs

/-- C6 witness: the selection applied to a concrete four-row store with
limit 2. -/
theorem list_missing_content_spec_witness :
    (list_missing_content
      [⟨1, "u1", "t", "d", some "done"⟩, ⟨2, "u2", "t", "d", none⟩,
       ⟨3, "u3", "t", "d", none⟩, ⟨4, "u4", "t", "d", none⟩] 2).length ≤ 2 :=
  (list_missing_content_spec _ 2 (by decide)).2.1

/-! ## C9 — the date yielded for each list entry -/

lemma strptimeTs_empty : strptimeTs "" = none := by decide

lemma format_date_text_getD (ts : Option String) :
    format_date_text (ts.getD "") = date_per_spec ts := by
  cases ts with
  | none => rfl
  | some s =>
    by_cases hs : s = ""
    · subst hs
      simp [format_date_text, date_per_spec, strptimeTs_empty]
    · simp [format_date_text, date_per_spec, hs]

/-- C9.  Every record yielded by `extract_communication_data` carries as its
date exactly the case analysis the spec states: the timestamp reformatted
from `YYYY-MM-DDTHH:MM:SSZ` to `YYYY-MM-DD` when it parses in that format,
the raw timestamp string unchanged when reformatting fails, and the empty
string when the timestamp element is absent — witnessed by the function
computing, entry by entry, the record built from `date_per_spec`; together
with one concrete instance of each of the three cases. -/
theorem extract_communication_data_dates :
    (∀ (urljoin : String → String → String) (items : List RawItem) (base_url : String),
      extract_communication_data urljoin (some items) base_url =
        items.filterMap (fun it => it.link.map
          (fun l => ⟨urljoin base_url l.1, l.2.trim, date_per_spec it.datetime⟩))) ∧
    date_per_spec (some "2024-01-01T10:30:00Z") = "2024-01-01" ∧
    date_per_spec (some "not-a-date") = "not-a-date" ∧
    date_per_spec none = "" := by
  refine ⟨fun urljoin items base_url => ?_, by decide, by decide, rfl⟩
  induction items with
  | nil => rfl
  | cons it rest ih =>
    rw [List.filterMap_cons]
    cases hl : it.link with
    | none =>
      simp only [extract_communication_data, List.foldr_cons, hl, Option.map_none']
      exact ih
    | some l =>
      simp only [extract_communication_data, List.foldr_cons, hl, Option.map_some']
      rw [format_date_text_getD]
      exact congrArg _ ih

/-! ## C4 — idempotent discovery -/

lemma mem_insertRow (x r : Row) (s : Store) (h : x ∈ insertRow r s) : x = r ∨ x ∈ s := by
  induction s with
  | nil =>
    rw [insertRow] at h
    exact Or.inl (List.mem_singleton.mp h)
  | cons a as ih =>
    rw [insertRow] at h
    by_cases h1 : r.id < a.id
    · rw [if_pos h1] at h
      rcases List.mem_cons.mp h with rfl | h2
      · exact Or.inl rfl
      · exact Or.inr h2
    · by_cases h2 : r.id = a.id
      · rw [if_neg h1, if_pos h2] at h
        exact Or.inr h
      · rw [if_neg h1, if_neg h2] at h
        rcases List.mem_cons.mp h with rfl | h3
        · exact Or.inr (List.mem_cons_self _ _)
        · rcases ih h3 with h4 | h4
          · exact Or.inl h4
          · exact Or.inr (List.mem_cons_of_mem a h4)

lemma mem_insertRow_of_mem (x r : Row) (s : Store) (hx : x ∈ s) : x ∈ insertRow r s := by
  induction s with
  | nil => exact absurd hx (List.not_mem_nil x)
  | cons a as ih =>
    rw [insertRow]
    by_cases h1 : r.id < a.id
    · rw [if_pos h1]
      exact List.mem_cons_of_mem r hx
    · by_cases h2 : r.id = a.id
      · rw [if_neg h1, if_pos h2]; exact hx
      · rw [if_neg h1, if_neg h2]
        rcases List.mem_cons.mp hx with rfl | hx2
        · exact List.mem_cons_self _ _
        · exact List.mem_cons_of_mem a (ih hx2)

lemma insertRow_id_mem (r : Row) (s : Store) : ∃ y ∈ insertRow r s, y.id = r.id := by
  induction s with
  | nil => exact ⟨r, by rw [insertRow]; exact List.mem_singleton.mpr rfl, rfl⟩
  | cons a as ih =>
    rw [insertRow]
    by_cases h1 : r.id < a.id
    · exact ⟨r, by rw [if_pos h1]; exact List.mem_cons_self _ _, rfl⟩
    · by_cases h2 : r.id = a.id
      · exact ⟨a, by rw [if_neg h1, if_pos h2]; exact List.mem_cons_self _ _, h2.symm⟩
      · obtain ⟨y, hy, hyid⟩ := ih
        refine ⟨y, ?_, hyid⟩
        rw [if_neg h1, if_neg h2]
        exact List.mem_cons_of_mem a hy

lemma insertRow_sorted (r : Row) (s : Store) (hs : StoreSorted s) :
    StoreSorted (insertRow r s) := by
  induction s with
  | nil => rw [insertRow]; exact List.pairwise_singleton _ r
  | cons a as ih =>
    obtain ⟨ha, has⟩ := List.pairwise_cons.mp hs
    rw [insertRow]
    by_cases h1 : r.id < a.id
    · rw [if_pos h1]
      refine List.pairwise_cons.mpr ⟨?_, List.pairwise_cons.mpr ⟨ha, has⟩⟩
      intro b hb
      rcases List.mem_cons.mp hb with rfl | hb2
      · exact h1
      · exact h1.trans (ha b hb2)
    · by_cases h2 : r.id = a.id
      · rw [if_neg h1, if_pos h2]
        exact List.pairwise_cons.mpr ⟨ha, has⟩
      · rw [if_neg h1, if_neg h2]
        refine List.pairwise_cons.mpr ⟨?_, ih has⟩
        intro b hb
        rcases mem_insertRow b r as hb with rfl | hb2
        · omega
        · exact ha b hb2

lemma insertRow_eq_of_mem (r : Row) (s : Store) (hs : StoreSorted s)
    (h : ∃ x ∈ s, x.id = r.id) : insertRow r s = s := by
  induction s with
  | nil =>
    obtain ⟨x, hx, _⟩ := h
    exact absurd hx (List.not_mem_nil x)
  | cons a as ih =>
    obtain ⟨ha, has⟩ := List.pairwise_cons.mp hs
    obtain ⟨x, hx, hxid⟩ := h
    rw [insertRow]
    by_cases h2 : r.id = a.id
    · rw [if_neg (by omega), if_pos h2]
    · rcases List.mem_cons.mp hx with rfl | hx2
      · exact absurd hxid.symm h2
      · have hlt : a.id < x.id := ha x hx2
        rw [if_neg (by omega), if_neg h2, ih has ⟨x, hx2, hxid⟩]

lemma saveStep_store (p : Store × Nat) (item : Item) :
    (saveStep p item).1 = p.1 ∨
    ∃ n, extract_comunicato_id item.url = some n ∧ n ≠ 0 ∧
      (saveStep p item).1 = insertRow ⟨n, item.url, item.title, item.date, none⟩ p.1 := by
  unfold saveStep
  cases hx : extract_comunicato_id item.url with
  | none => exact Or.inl rfl
  | some n =>
    by_cases hn : n = 0
    · simp [hn]
    · exact Or.inr ⟨n, rfl, hn, by simp [hn]⟩

lemma foldl_saveStep_mem (data : List Item) :
    ∀ (p : Store × Nat) (x : Row), x ∈ p.1 → x ∈ (data.foldl saveStep p).1 := by
  induction data with
  | nil => intro p x hx; exact hx
  | cons item rest ih =>
    intro p x hx
    rw [List.foldl_cons]
    apply ih
    rcases saveStep_store p item with h | ⟨n, _, _, h⟩
    · rw [h]; exact hx
    · rw [h]; exact mem_insertRow_of_mem x _ p.1 hx

lemma foldl_saveStep_sorted (data : List Item) :
    ∀ p : Store × Nat, StoreSorted p.1 → StoreSorted (data.foldl saveStep p).1 := by
  induction data with
  | nil => intro p hp; exact hp
  | cons item rest ih =>
    intro p hp
    rw [List.foldl_cons]
    apply ih
    rcases saveStep_store p item with h | ⟨n, _, _, h⟩
    · rw [h]; exact hp
    · rw [h]; exact insertRow_sorted _ p.1 hp

lemma foldl_saveStep_id_present (data : List Item) :
    ∀ (p : Store × Nat) (item : Item), item ∈ data → ∀ n,
      extract_comunicato_id item.url = some n → n ≠ 0 →
      ∃ y ∈ (data.foldl saveStep p).1, y.id = n := by
  induction data with
  | nil => intro p item h; exact absurd h (List.not_mem_nil item)
  | cons it rest ih =>
    intro p item hmem n hx hn
    rw [List.foldl_cons]
    rcases List.mem_cons.mp hmem with rfl | hmem2
    · have hstep : (saveStep p item).1 =
          insertRow ⟨n, item.url, item.title, item.date, none⟩ p.1 := by
        unfold saveStep
        rw [hx]
        simp [hn]
      obtain ⟨y, hy, hyid⟩ := insertRow_id_mem ⟨n, item.url, item.title, item.date, none⟩ p.1
      exact ⟨y, foldl_saveStep_mem rest _ y (by rw [hstep]; exact hy), hyid⟩
    · exact ih (saveStep p it) item hmem2 n hx hn

lemma foldl_saveStep_noop (data : List Item) :
    ∀ p : Store × Nat, StoreSorted p.1 →
      (∀ item ∈ data, ∀ n, extract_comunicato_id item.url = some n → n ≠ 0 →
        ∃ y ∈ p.1, y.id = n) →
      (data.foldl saveStep p).1 = p.1 := by
  induction data with
  | nil => intro p _ _; rfl
  | cons it rest ih =>
    intro p hp hids
    rw [List.foldl_cons]
    have hstep : (saveStep p it).1 = p.1 := by
      unfold saveStep
      cases hx : extract_comunicato_id it.url with
      | none => rfl
      | some n =>
        by_cases hn : n = 0
        · simp [hn]
        · have hpres := hids it (List.mem_cons_self _ _) n hx hn
          simp only [hn, ne_eq, not_false_eq_true, if_true]
          exact insertRow_eq_of_mem _ p.1 hp hpres
    have h1 : StoreSorted (saveStep p it).1 := by rw [hstep]; exact hp
    have h2 : ∀ item ∈ rest, ∀ n, extract_comunicato_id item.url = some n → n ≠ 0 →
        ∃ y ∈ (saveStep p it).1, y.id = n := by
      intro item hm n hx hn
      rw [hstep]
      exact hids item (List.mem_cons_of_mem it hm) n hx hn
    rw [ih (saveStep p it) h1 h2, hstep]

/-- C4.  Persisting a record whose external id already exists as a primary
key is a no-op: `INSERT OR IGNORE` creates no row and leaves every column of
the existing row unchanged, whatever field values the re-discovered record
carries; consequently saving the same page data twice leaves exactly the
store produced by saving it once (same rows, same row count). -/
theorem upsert_idempotent :
    (∀ (s : Store) (r : Row), StoreSorted s → (∃ x ∈ s, x.id = r.id) →
      insertRow r s = s) ∧
    (∀ (data : List Item) (s : Store), StoreSorted s →
      (save_page_to_sqlite data (save_page_to_sqlite data s).1).1 =
        (save_page_to_sqlite data s).1) := by
  refine ⟨fun s r hs h => insertRow_eq_of_mem r s hs h, fun data s hs => ?_⟩
  unfold save_page_to_sqlite
  exact foldl_saveStep_noop data _ (foldl_saveStep_sorted data (s, 0) hs)
    (fun item hm n hx hn => foldl_saveStep_id_present data (s, 0) item hm n hx hn)

/-- C4 witness: re-inserting id 100 with a changed title and url leaves the
stored row untouched, and a duplicate-heavy page saved twice gives the store
of saving it once. -/
theorem upsert_idempotent_witness :
    insertRow ⟨100, "u2", "B", "d2", none⟩ [⟨100, "u1", "A", "d1", some "c"⟩] =
      [⟨100, "u1", "A", "d1", some "c"⟩] :=
  upsert_idempotent.1 [⟨100, "u1", "A", "d1", some "c"⟩] ⟨100, "u2", "B", "d2", none⟩
    (by decide) ⟨⟨100, "u1", "A", "d1", some "c"⟩, List.mem_singleton.mpr rfl, rfl⟩

/-! ## C1 — backfill exhaustion -/

lemma updFor_nil (oracle : String → Option String) (r : Row) : updFor oracle [] r = r := rfl

lemma updFor_id (oracle : String → Option String) (es : List Row) (r : Row) :
    (updFor oracle es r).id = r.id := by
  unfold updFor
  cases es.find? (fun e => e.id == r.id) <;> rfl

lemma updFor_content_isNone (oracle : String → Option String) (es : List Row) (r : Row) :
    ((updFor oracle es r).content).isNone =
      ((es.find? (fun e => e.id == r.id)).isNone && r.content.isNone) := by
  unfold updFor
  cases es.find? (fun e => e.id == r.id) <;> simp

lemma ids_nodup_of_sorted (s : Store) (hs : StoreSorted s) :
    (s.map (fun r => r.id)).Nodup := by
  exact List.pairwise_map.mpr (hs.imp fun h => Nat.ne_of_lt h)

lemma applyEntries_eq_map (oracle : String → Option String) (es : List Row) :
    ∀ s : Store, (∀ e ∈ es, truthyContent (oracle e.url) = true) →
      ((es.map (fun e => e.id)).Nodup) →
      applyEntries oracle es s = s.map (updFor oracle es) := by
  induction es with
  | nil =>
    intro s _ _
    rw [applyEntries]
    have h : s.map (updFor oracle []) = s.map id :=
      List.map_congr_left (fun r _ => updFor_nil oracle r)
    rw [h, List.map_id]
  | cons e rest ih =>
    intro s hT hnd
    have hTe : truthyContent (oracle e.url) = true := hT e (List.mem_cons_self _ _)
    have hTrest : ∀ x ∈ rest, truthyContent (oracle x.url) = true :=
      fun x hx => hT x (List.mem_cons_of_mem e hx)
    rw [List.map_cons, List.nodup_cons] at hnd
    obtain ⟨hnotin, hndrest⟩ := hnd
    rw [applyEntries, if_pos hTe,
      ih (set_content s e.id ((oracle e.url).getD "")) hTrest hndrest,
      set_content, List.map_map]
    apply List.map_congr_left
    intro r _
    by_cases hid : r.id = e.id
    · have hfind : rest.find? (fun x =>
          x.id == (if r.id = e.id then { r with content := some ((oracle e.url).getD "") }
            else r : Row).id) = rest.find? (fun x => x.id == r.id) := by
        rw [if_pos hid]
      have hnone : rest.find? (fun x => x.id == r.id) = none := by
        rw [List.find?_eq_none]
        intro x hx hbeq
        exact hnotin (by
          rw [← hid, ← beq_iff_eq.mp hbeq]
          exact List.mem_map_of_mem _ hx)
      have hhead : updFor oracle (e :: rest) r =
          { r with content := some ((oracle e.url).getD "") } := by
        unfold updFor
        rw [List.find?_cons_of_pos _ (by simp [hid])]
      rw [Function.comp_apply, hhead]
      unfold updFor
      rw [hfind, hnone, if_pos hid]
    · have htail : updFor oracle (e :: rest) r = updFor oracle rest r := by
        unfold updFor
        rw [List.find?_cons_of_neg _ (by simp; omega)]
      rw [Function.comp_apply, if_neg hid, htail]

lemma map_updFor_sorted (oracle : String → Option String) (es : List Row) (s : Store)
    (hs : StoreSorted s) : StoreSorted (s.map (updFor oracle es)) := by
  exact List.pairwise_map.mpr (hs.imp fun h => by simpa [updFor_id] using h)

lemma nodup_ids_take_drop (s : Store) (hs : StoreSorted s) (k : Nat) :
    ∀ e ∈ (s.filter (fun r => r.content.isNone)).take k,
      ∀ r ∈ (s.filter (fun r => r.content.isNone)).drop k, e.id ≠ r.id := by
  intro e he r hr
  have hnd : (((s.filter (fun r => r.content.isNone)).take k).map (fun x => x.id) ++
      ((s.filter (fun r => r.content.isNone)).drop k).map (fun x => x.id)).Nodup := by
    rw [← List.map_append, List.take_append_drop]
    exact (ids_nodup_of_sorted s hs).sublist ((List.filter_sublist s).map _)
  obtain ⟨_, _, hdisj⟩ := List.nodup_append.mp hnd
  intro heq
  exact hdisj (List.mem_map_of_mem _ he) (heq ▸ List.mem_map_of_mem _ hr)

lemma find?_take_drop_none (s : Store) (hs : StoreSorted s) (k : Nat) :
    ∀ r ∈ (s.filter (fun r => r.content.isNone)).drop k,
      ((s.filter (fun r => r.content.isNone)).take k).find? (fun e => e.id == r.id) = none := by
  intro r hr
  rw [List.find?_eq_none]
  intro e he hbeq
  exact nodup_ids_take_drop s hs k e he r hr (beq_iff_eq.mp hbeq)

lemma applyEntries_take_filter (oracle : String → Option String) (s : Store) (k : Nat)
    (hs : StoreSorted s)
    (hT : ∀ e ∈ (s.filter (fun r => r.content.isNone)).take k,
      truthyContent (oracle e.url) = true) :
    (applyEntries oracle ((s.filter (fun r => r.content.isNone)).take k) s).filter
        (fun r => r.content.isNone) =
      (s.filter (fun r => r.content.isNone)).drop k := by
  have hnodup_L : ((s.filter (fun r => r.content.isNone)).map (fun r => r.id)).Nodup :=
    (ids_nodup_of_sorted s hs).sublist ((List.filter_sublist s).map _)
  have hnodup_es : (((s.filter (fun r => r.content.isNone)).take k).map
      (fun r => r.id)).Nodup :=
    hnodup_L.sublist ((List.take_sublist k _).map _)
  rw [applyEntries_eq_map oracle _ s hT hnodup_es, List.filter_map]
  have hpred : ∀ r ∈ s, ((fun r => r.content.isNone) ∘
      updFor oracle ((s.filter (fun r => r.content.isNone)).take k)) r =
      ((((s.filter (fun r => r.content.isNone)).take k).find?
        (fun e => e.id == r.id)).isNone && r.content.isNone) :=
    fun r _ => updFor_content_isNone oracle _ r
  rw [List.filter_congr hpred, ← List.filter_filter]
  have hsplit : (s.filter (fun r => r.content.isNone)) =
      (s.filter (fun r => r.content.isNone)).take k ++
        (s.filter (fun r => r.content.isNone)).drop k :=
    (List.take_append_drop k _).symm
  have h1 : ((s.filter (fun r => r.content.isNone)).take k).filter
      (fun r => (((s.filter (fun r => r.content.isNone)).take k).find?
        (fun e => e.id == r.id)).isNone) = [] := by
    rw [List.filter_eq_nil_iff]
    intro r hr hcontra
    have hsome : (((s.filter (fun r => r.content.isNone)).take k).find?
        (fun e => e.id == r.id)).isSome := List.find?_isSome.mpr ⟨r, hr, by simp⟩
    rw [Option.isNone_iff_eq_none.mp hcontra] at hsome
    simp at hsome
  have h2 : ((s.filter (fun r => r.content.isNone)).drop k).filter
      (fun r => (((s.filter (fun r => r.content.isNone)).take k).find?
        (fun e => e.id == r.id)).isNone) =
      (s.filter (fun r => r.content.isNone)).drop k := by
    rw [List.filter_eq_self]
    intro r hr
    rw [find?_take_drop_none s hs k r hr]
    rfl
  have hfil : (s.filter (fun r => r.content.isNone)).filter
      (fun r => (((s.filter (fun r => r.content.isNone)).take k).find?
        (fun e => e.id == r.id)).isNone) =
      (s.filter (fun r => r.content.isNone)).drop k := by
    have step : (s.filter (fun r => r.content.isNone)).filter
        (fun r => (((s.filter (fun r => r.content.isNone)).take k).find?
          (fun e => e.id == r.id)).isNone) =
        ((s.filter (fun r => r.content.isNone)).take k ++
          (s.filter (fun r => r.content.isNone)).drop k).filter
        (fun r => (((s.filter (fun r => r.content.isNone)).take k).find?
          (fun e => e.id == r.id)).isNone) :=
      congrArg _ hsplit
    rw [step, List.filter_append, h1, h2, List.nil_append]
  rw [hfil]
  have hmapid : ((s.filter (fun r => r.content.isNone)).drop k).map
      (updFor oracle ((s.filter (fun r => r.content.isNone)).take k)) =
      ((s.filter (fun r => r.content.isNone)).drop k).map id := by
    apply List.map_congr_left
    intro r hr
    unfold updFor
    rw [find?_take_drop_none s hs k r hr]
    rfl
  rw [hmapid, List.map_id]

lemma completeAll_map_updFor (oracle : String → Option String) (s : Store) (k : Nat)
    (hs : StoreSorted s) :
    completeAll oracle (s.map (updFor oracle ((s.filter (fun r => r.content.isNone)).take k))) =
      completeAll oracle s := by
  unfold completeAll
  rw [List.map_map]
  apply List.map_congr_left
  intro r hr
  rw [Function.comp_apply]
  cases hfind : ((s.filter (fun x => x.content.isNone)).take k).find? (fun e => e.id == r.id) with
  | none =>
    have hup : updFor oracle ((s.filter (fun x => x.content.isNone)).take k) r = r := by
      unfold updFor
      rw [hfind]
    rw [hup]
  | some e =>
    have hmem : e ∈ (s.filter (fun x => x.content.isNone)).take k :=
      List.mem_of_find?_eq_some hfind
    have heid : e.id = r.id := by
      have h := List.find?_some hfind
      simpa using h
    have hes : e ∈ s := List.mem_of_mem_filter (List.mem_of_mem_take hmem)
    have heq : e = r := List.inj_on_of_nodup_map (ids_nodup_of_sorted s hs) hes hr heid
    have hnull : r.content.isNone = true := by
      have h := List.of_mem_filter (List.mem_of_mem_take hmem)
      rw [← heq]
      exact h
    have hupd : updFor oracle ((s.filter (fun x => x.content.isNone)).take k) r =
        { r with content := some ((oracle r.url).getD "") } := by
      unfold updFor
      rw [hfind, heq]
    rw [hupd]
    simp [hnull]

lemma process_entries_none (oracle : String → Option String) (es : List Row) :
    ∀ (s : Store) (u t : Nat) (v : List Nat),
      process_entries oracle none es s u t v =
        (applyEntries oracle es s,
         u + es.countP (fun e => truthyContent (oracle e.url)),
         t + es.length, v ++ es.map (fun e => e.id), false) := by
  induction es with
  | nil =>
    intro s u t v
    simp [process_entries, applyEntries]
  | cons e rest ih =>
    intro s u t v
    rw [process_entries, if_neg (by simp [limTruthy]), ih, applyEntries]
    have hu : (if truthyContent (oracle e.url) = true then u + 1 else u) +
        rest.countP (fun x => truthyContent (oracle x.url)) =
        u + (e :: rest).countP (fun x => truthyContent (oracle x.url)) := by
      rw [List.countP_cons]
      by_cases ht : truthyContent (oracle e.url) = true
      · rw [if_pos ht]
        simp [ht]
        omega
      · rw [if_neg ht]
        simp [ht]
    have htt : t + 1 + rest.length = t + (e :: rest).length := by
      rw [List.length_cons]
      omega
    have hv : (v ++ [e.id]) ++ rest.map (fun x => x.id) =
        v ++ (e :: rest).map (fun x => x.id) := by
      rw [List.map_cons, List.append_assoc, List.singleton_append]
    rw [hu, htt, hv]

lemma backfill_loop_none (oracle : String → Option String) :
    ∀ (fuel : Nat) (s : Store) (u t : Nat) (v : List Nat),
      StoreSorted s →
      (∀ r ∈ s, r.content = none → truthyContent (oracle r.url) = true) →
      (s.filter (fun r => r.content.isNone)).length + 1 ≤ fuel →
      backfill_loop oracle none fuel s u t v =
        (completeAll oracle s,
         u + (s.filter (fun r => r.content.isNone)).length,
         t + (s.filter (fun r => r.content.isNone)).length,
         v ++ (s.filter (fun r => r.content.isNone)).map (fun r => r.id)) := by
  intro fuel
  induction fuel with
  | zero =>
    intro s u t v _ _ hlen
    exact absurd hlen (by omega)
  | succ fuel ih =>
    intro s u t v hs hT hlen
    have hcbs : current_batch_size none t = batch_size := by
      unfold current_batch_size
      rw [if_neg (by simp [limTruthy])]
    rw [backfill_loop, hcbs]
    simp only [list_missing_content]
    by_cases hL : s.filter (fun r => r.content.isNone) = []
    · have hempty : ((s.filter (fun r => r.content.isNone)).take batch_size).isEmpty = true := by
        rw [hL]
        rfl
      rw [if_pos hempty]
      have hca : completeAll oracle s = s := by
        unfold completeAll
        have hid : ∀ r ∈ s, (if r.content.isNone then
            { r with content := some ((oracle r.url).getD "") } else r) = id r := by
          intro r hr
          rw [if_neg (List.filter_eq_nil_iff.mp hL r hr)]
          rfl
        rw [List.map_congr_left hid, List.map_id]
      rw [hca, hL]
      simp
    · have hTes : ∀ e ∈ (s.filter (fun r => r.content.isNone)).take batch_size,
          truthyContent (oracle e.url) = true := by
        intro e he
        have hef := List.mem_of_mem_take he
        have hnull : e.content = none := by
          have h := List.of_mem_filter hef
          simpa using h
        exact hT e (List.mem_of_mem_filter hef) hnull
      have hnodup_es : (((s.filter (fun r => r.content.isNone)).take batch_size).map
          (fun r => r.id)).Nodup :=
        ((ids_nodup_of_sorted s hs).sublist ((List.filter_sublist s).map _)).sublist
          ((List.take_sublist batch_size _).map _)
      have hne : (s.filter (fun r => r.content.isNone)).take batch_size ≠ [] := by
        intro hnil
        rcases List.take_eq_nil_iff.mp hnil with h5 | h0
        · simp [batch_size] at h5
        · exact hL h0
      rw [if_neg (by simpa [List.isEmpty_iff] using hne), process_entries_none]
      rw [if_neg (by simp)]
      dsimp only
      have hfil1 : (applyEntries oracle ((s.filter (fun r => r.content.isNone)).take batch_size)
          s).filter (fun r => r.content.isNone) =
          (s.filter (fun r => r.content.isNone)).drop batch_size :=
        applyEntries_take_filter oracle s batch_size hs hTes
      have hs1 : StoreSorted (applyEntries oracle
          ((s.filter (fun r => r.content.isNone)).take batch_size) s) := by
        rw [applyEntries_eq_map oracle _ s hTes hnodup_es]
        exact map_updFor_sorted oracle _ s hs
      have hT1 : ∀ r ∈ applyEntries oracle
          ((s.filter (fun r => r.content.isNone)).take batch_size) s,
          r.content = none → truthyContent (oracle r.url) = true := by
        intro r hr hnone
        have hrf : r ∈ (applyEntries oracle
            ((s.filter (fun r => r.content.isNone)).take batch_size) s).filter
            (fun r => r.content.isNone) :=
          List.mem_filter_of_mem hr (by rw [hnone]; rfl)
        rw [hfil1] at hrf
        exact hT r (List.mem_of_mem_filter (List.mem_of_mem_drop hrf)) hnone
      have hpos : 0 < (s.filter (fun r => r.content.isNone)).length :=
        List.length_pos.mpr hL
      have hlen1 : ((applyEntries oracle
          ((s.filter (fun r => r.content.isNone)).take batch_size) s).filter
          (fun r => r.content.isNone)).length + 1 ≤ fuel := by
        rw [hfil1, List.length_drop]
        simp only [batch_size] at *
        omega
      rw [ih _ _ _ _ hs1 hT1 hlen1]
      have hca : completeAll oracle (applyEntries oracle
          ((s.filter (fun r => r.content.isNone)).take batch_size) s) =
          completeAll oracle s := by
        rw [applyEntries_eq_map oracle _ s hTes hnodup_es]
        exact completeAll_map_updFor oracle s batch_size hs
      rw [hca, hfil1]
      have hcnt : ((s.filter (fun r => r.content.isNone)).take batch_size).countP
          (fun e => truthyContent (oracle e.url)) =
          ((s.filter (fun r => r.content.isNone)).take batch_size).length :=
        List.countP_eq_length.mpr hTes
      rw [hcnt]
      have hu2 : u + ((s.filter (fun r => r.content.isNone)).take batch_size).length +
          ((s.filter (fun r => r.content.isNone)).drop batch_size).length =
          u + (s.filter (fun r => r.content.isNone)).length := by
        rw [List.length_take, List.length_drop]
        omega
      have ht2 : t + ((s.filter (fun r => r.content.isNone)).take batch_size).length +
          ((s.filter (fun r => r.content.isNone)).drop batch_size).length =
          t + (s.filter (fun r => r.content.isNone)).length := by
        rw [List.length_take, List.length_drop]
        omega
      have hv2 : v ++ ((s.filter (fun r => r.content.isNone)).take batch_size).map
            (fun e => e.id) ++
          ((s.filter (fun r => r.content.isNone)).drop batch_size).map (fun r => r.id) =
          v ++ (s.filter (fun r => r.content.isNone)).map (fun r => r.id) := by
        rw [List.append_assoc, ← List.map_append, List.take_append_drop]
      rw [hu2, ht2, hv2]

/-- C1.  Starting from a store whose content-missing rows number `N` with the
fixed `batch_size = 5 < N`, and with every fetch yielding truthy content (the
spec's exhaustion scenario — a row whose extraction fails stays null and is
retried by a later run), the backfill loop of `update_press_release_content`
visits exactly the `N` content-missing rows, each exactly once (the visited
trace is precisely their ids, without duplicates, in id order), no row is
skipped, and the loop terminates because the next pull returns no rows: the
final store has no content-missing row, and granting the loop more fuel
changes nothing. -/
theorem backfill_exhaustion (oracle : String → Option String) (s : Store)
    (hs : StoreSorted s)
    (_hN : batch_size < (s.filter (fun r => r.content.isNone)).length)
    (hT : ∀ r ∈ s, r.content = none → truthyContent (oracle r.url) = true) :
    (update_press_release_content oracle none
        ((s.filter (fun r => r.content.isNone)).length + 1) s).2.2.2 =
      (s.filter (fun r => r.content.isNone)).map (fun r => r.id) ∧
    ((update_press_release_content oracle none
        ((s.filter (fun r => r.content.isNone)).length + 1) s).2.2.2).Nodup ∧
    list_missing_content (update_press_release_content oracle none
        ((s.filter (fun r => r.content.isNone)).length + 1) s).1 batch_size = [] ∧
    update_press_release_content oracle none
        ((s.filter (fun r => r.content.isNone)).length + 1) s =
      update_press_release_content oracle none
        ((s.filter (fun r => r.content.isNone)).length + 2) s := by
  have hrun1 := backfill_loop_none oracle ((s.filter (fun r => r.content.isNone)).length + 1)
    s 0 0 [] hs hT (Nat.le_refl _)
  have hrun2 := backfill_loop_none oracle ((s.filter (fun r => r.content.isNone)).length + 2)
    s 0 0 [] hs hT (by omega)
  have hnodupL : ((s.filter (fun r => r.content.isNone)).map (fun r => r.id)).Nodup :=
    (ids_nodup_of_sorted s hs).sublist ((List.filter_sublist s).map _)
  have hnonull : (completeAll oracle s).filter (fun r => r.content.isNone) = [] := by
    rw [List.filter_eq_nil_iff]
    intro r' hr'
    obtain ⟨r, _, rfl⟩ := List.mem_map.mp hr'
    cases hrc : r.content with
    | none => simp [hrc]
    | some c => simp [hrc]
  unfold update_press_release_content
  rw [hrun1, hrun2]
  refine ⟨List.nil_append _, by simpa using hnodupL, ?_, rfl⟩
  simp [list_missing_content, hnonull]

/-- C1 witness: a six-row store, all contents missing, every fetch
succeeding — the run with fuel 7 visits ids 1..6 exactly once. -/
theorem backfill_exhaustion_witness :
    (update_press_release_content (fun _ => some "body") none 7
      [⟨1, "u1", "t1", "d", none⟩, ⟨2, "u2", "t2", "d", none⟩, ⟨3, "u3", "t3", "d", none⟩,
       ⟨4, "u4", "t4", "d", none⟩, ⟨5, "u5", "t5", "d", none⟩,
       ⟨6, "u6", "t6", "d", none⟩]).2.2.2 = [1, 2, 3, 4, 5, 6] := by
  have h := (backfill_exhaustion (fun _ => some "body")
    [⟨1, "u1", "t1", "d", none⟩, ⟨2, "u2", "t2", "d", none⟩, ⟨3, "u3", "t3", "d", none⟩,
     ⟨4, "u4", "t4", "d", none⟩, ⟨5, "u5", "t5", "d", none⟩, ⟨6, "u6", "t6", "d", none⟩]
    (by decide) (by decide) (by decide)).1
  exact h.trans (by decide)

/-! ## C7 — content monotonicity -/

lemma upd_one_id (i : Nat) (c : String) (r : Row) :
    (if r.id = i then { r with content := some c } else r).id = r.id := by
  split <;> rfl

lemma rowById_id (s : Store) (j : Nat) (r0 : Row) (h : rowById s j = some r0) : r0.id = j := by
  have hp := List.find?_some h
  simpa using hp

lemma find?_id_map (g : Row → Row) (hg : ∀ r, (g r).id = r.id) (s : List Row) (j : Nat) :
    (s.map g).find? (fun r => r.id == j) = (s.find? (fun r => r.id == j)).map g := by
  induction s with
  | nil => rfl
  | cons a as ih =>
    rw [List.map_cons]
    by_cases h : a.id = j
    · rw [List.find?_cons_of_pos _ (by simp [hg, h]), List.find?_cons_of_pos _ (by simp [h])]
      rfl
    · rw [List.find?_cons_of_neg _ (by simp [hg, h]), List.find?_cons_of_neg _ (by simp [h])]
      exact ih

lemma rowById_set_content (s : Store) (i : Nat) (c : String) (j : Nat) :
    rowById (set_content s i c) j =
      (rowById s j).map (fun r => if r.id = i then { r with content := some c } else r) := by
  unfold rowById set_content
  exact find?_id_map _ (upd_one_id i c) s j

lemma rowContent_set_content_ne (s : Store) (i : Nat) (c : String) (j : Nat) (hne : i ≠ j) :
    rowContent (set_content s i c) j = rowContent s j := by
  unfold rowContent
  rw [rowById_set_content]
  cases hr : rowById s j with
  | none => rfl
  | some r0 =>
    have hid : r0.id = j := rowById_id s j r0 hr
    simp only [Option.map_some']
    rw [if_neg (by omega)]

lemma set_content_sorted (s : Store) (i : Nat) (c : String) (hs : StoreSorted s) :
    StoreSorted (set_content s i c) := by
  unfold set_content
  exact List.pairwise_map.mpr (hs.imp fun h => by simpa [upd_one_id] using h)

lemma rowById_insertRow_ne (r : Row) (s : Store) (id0 : Nat) (hne : r.id ≠ id0) :
    rowById (insertRow r s) id0 = rowById s id0 := by
  induction s with
  | nil =>
    unfold rowById
    rw [insertRow, List.find?_cons_of_neg _ (by simp [hne])]
  | cons a as ih =>
    unfold rowById
    rw [insertRow]
    by_cases h1 : r.id < a.id
    · rw [if_pos h1, List.find?_cons_of_neg _ (by simp [hne])]
    · by_cases h2 : r.id = a.id
      · rw [if_neg h1, if_pos h2]
      · rw [if_neg h1, if_neg h2]
        by_cases h3 : a.id = id0
        · rw [List.find?_cons_of_pos _ (by simp [h3]), List.find?_cons_of_pos _ (by simp [h3])]
        · rw [List.find?_cons_of_neg _ (by simp [h3]), List.find?_cons_of_neg _ (by simp [h3])]
          exact ih

lemma rowContent_insertRow (s : Store) (r : Row) (id0 : Nat) (c : String)
    (hs : StoreSorted s) (h : rowContent s id0 = some (some c)) :
    rowContent (insertRow r s) id0 = some (some c) := by
  by_cases hr : r.id = id0
  · have hex : ∃ x ∈ s, x.id = r.id := by
      unfold rowContent rowById at h
      cases hfind : s.find? (fun x => x.id == id0) with
      | none => rw [hfind] at h; simp at h
      | some x =>
        refine ⟨x, List.mem_of_find?_eq_some hfind, ?_⟩
        rw [hr]
        simpa using List.find?_some hfind
    rw [insertRow_eq_of_mem r s hs hex]
    exact h
  · unfold rowContent
    rw [rowById_insertRow_ne r s id0 hr]
    exact h

lemma entries_ne_of_content (s : Store) (hs : StoreSorted s) (id0 : Nat) (c : String)
    (h : rowContent s id0 = some (some c)) (lim : Nat) :
    ∀ e ∈ list_missing_content s lim, e.id ≠ id0 := by
  intro e he heq
  unfold list_missing_content at he
  have hes : e ∈ s := List.mem_of_mem_filter (List.mem_of_mem_take he)
  have henull : e.content.isNone = true := by
    have hp := List.of_mem_filter (List.mem_of_mem_take he)
    exact hp
  unfold rowContent rowById at h
  cases hfind : s.find? (fun x => x.id == id0) with
  | none => rw [hfind] at h; simp at h
  | some r0 =>
    rw [hfind] at h
    have hr0 : r0.content = some c := by simpa using h
    have hr0id : r0.id = id0 := by simpa using List.find?_some hfind
    have hr0s : r0 ∈ s := List.mem_of_find?_eq_some hfind
    have heq2 : e = r0 :=
      List.inj_on_of_nodup_map (ids_nodup_of_sorted s hs) hes hr0s (by rw [heq, hr0id])
    rw [heq2, hr0] at henull
    simp at henull

lemma process_entries_sorted (oracle : String → Option String) (limit : Option Nat) :
    ∀ (es : List Row) (s : Store) (u t : Nat) (v : List Nat),
      StoreSorted s → StoreSorted (process_entries oracle limit es s u t v).1 := by
  intro es
  induction es with
  | nil => intro s u t v hs; exact hs
  | cons e rest ih =>
    intro s u t v hs
    have hstep : StoreSorted (if truthyContent (oracle e.url) = true then
        set_content s e.id ((oracle e.url).getD "") else s) := by
      by_cases ht : truthyContent (oracle e.url) = true
      · rw [if_pos ht]; exact set_content_sorted s e.id _ hs
      · rw [if_neg ht]; exact hs
    rw [process_entries]
    by_cases hbrk : (limTruthy limit && decide (limit.getD 0 ≤ t + 1)) = true
    · rw [if_pos hbrk]; exact hstep
    · rw [if_neg hbrk]; exact ih _ _ _ _ hstep

lemma process_entries_preserve (oracle : String → Option String) (limit : Option Nat)
    (id0 : Nat) :
    ∀ (es : List Row) (s : Store) (u t : Nat) (v : List Nat),
      (∀ e ∈ es, e.id ≠ id0) →
      rowContent (process_entries oracle limit es s u t v).1 id0 = rowContent s id0 := by
  intro es
  induction es with
  | nil => intro s u t v _; rfl
  | cons e rest ih =>
    intro s u t v hne
    have hpres : rowContent (if truthyContent (oracle e.url) = true then
        set_content s e.id ((oracle e.url).getD "") else s) id0 = rowContent s id0 := by
      by_cases ht : truthyContent (oracle e.url) = true
      · rw [if_pos ht]
        exact rowContent_set_content_ne s e.id _ id0 (hne e (List.mem_cons_self _ _))
      · rw [if_neg ht]
    rw [process_entries]
    by_cases hbrk : (limTruthy limit && decide (limit.getD 0 ≤ t + 1)) = true
    · rw [if_pos hbrk]; exact hpres
    · rw [if_neg hbrk]
      rw [ih _ _ _ _ (fun x hx => hne x (List.mem_cons_of_mem e hx))]
      exact hpres

lemma process_entries_visited (oracle : String → Option String) (limit : Option Nat) :
    ∀ (es : List Row) (s : Store) (u t : Nat) (v : List Nat) (x : Nat),
      x ∈ (process_entries oracle limit es s u t v).2.2.2.1 →
      x ∈ v ∨ x ∈ es.map (fun e => e.id) := by
  intro es
  induction es with
  | nil => intro s u t v x hx; exact Or.inl hx
  | cons e rest ih =>
    intro s u t v x hx
    rw [process_entries] at hx
    by_cases hbrk : (limTruthy limit && decide (limit.getD 0 ≤ t + 1)) = true
    · rw [if_pos hbrk] at hx
      rcases List.mem_append.mp hx with hv | he
      · exact Or.inl hv
      · exact Or.inr (by
          rw [List.mem_singleton.mp he, List.map_cons]
          exact List.mem_cons_self _ _)
    · rw [if_neg hbrk] at hx
      rcases ih _ _ _ _ x hx with hv | he
      · rcases List.mem_append.mp hv with hv2 | he2
        · exact Or.inl hv2
        · exact Or.inr (by
            rw [List.mem_singleton.mp he2, List.map_cons]
            exact List.mem_cons_self _ _)
      · exact Or.inr (by rw [List.map_cons]; exact List.mem_cons_of_mem _ he)

lemma id_not_in_process_visited (oracle : String → Option String) (limit : Option Nat)
    (es : List Row) (s : Store) (u t : Nat) (v : List Nat) (id0 : Nat)
    (hnv : id0 ∉ v) (hne : ∀ e ∈ es, e.id ≠ id0) :
    id0 ∉ (process_entries oracle limit es s u t v).2.2.2.1 := by
  intro hmem
  rcases process_entries_visited oracle limit es s u t v id0 hmem with h | h
  · exact hnv h
  · obtain ⟨e, he, heid⟩ := List.mem_map.mp h
    exact hne e he heid

lemma backfill_loop_preserve (oracle : String → Option String) (limit : Option Nat)
    (id0 : Nat) (c : String) :
    ∀ (fuel : Nat) (s : Store) (u t : Nat) (v : List Nat),
      StoreSorted s →
      rowContent s id0 = some (some c) →
      rowContent (backfill_loop oracle limit fuel s u t v).1 id0 = some (some c) ∧
      (id0 ∉ v → id0 ∉ (backfill_loop oracle limit fuel s u t v).2.2.2) := by
  intro fuel
  induction fuel with
  | zero => intro s u t v _ h; exact ⟨h, fun hnv => hnv⟩
  | succ fuel ih =>
    intro s u t v hs h
    rw [backfill_loop]
    by_cases hemp : (list_missing_content s (current_batch_size limit t)).isEmpty = true
    · rw [if_pos hemp]
      exact ⟨h, fun hnv => hnv⟩
    · rw [if_neg hemp]
      have hne_es : ∀ e ∈ list_missing_content s (current_batch_size limit t), e.id ≠ id0 :=
        entries_ne_of_content s hs id0 c h _
      have hpres := process_entries_preserve oracle limit id0
        (list_missing_content s (current_batch_size limit t)) s u t v hne_es
      have hsorted1 := process_entries_sorted oracle limit
        (list_missing_content s (current_batch_size limit t)) s u t v hs
      by_cases hbrk : (process_entries oracle limit
          (list_missing_content s (current_batch_size limit t)) s u t v).2.2.2.2 = true
      · rw [if_pos hbrk]
        refine ⟨hpres.trans h, fun hnv => ?_⟩
        exact id_not_in_process_visited oracle limit _ s u t v id0 hnv hne_es
      · rw [if_neg hbrk]
        obtain ⟨h1, h2⟩ := ih _ _ _ _ hsorted1 (hpres.trans h)
        exact ⟨h1, fun hnv =>
          h2 (id_not_in_process_visited oracle limit _ s u t v id0 hnv hne_es)⟩

/-- C7.  A row's content only moves from null to non-null: an upsert of any
re-discovered record leaves a non-null content untouched (and unchanged in
value), a backfill run — any fuel, any cap, any fetch outcomes — leaves it
untouched as well, and the backfill never fetches a row whose content is
already present (its id never enters the visited trace). -/
theorem content_monotonicity :
    (∀ (s : Store) (r : Row) (id0 : Nat) (c : String), StoreSorted s →
      rowContent s id0 = some (some c) →
      rowContent (insertRow r s) id0 = some (some c)) ∧
    (∀ (oracle : String → Option String) (limit : Option Nat) (fuel : Nat) (s : Store)
      (id0 : Nat) (c : String), StoreSorted s →
      rowContent s id0 = some (some c) →
      rowContent (update_press_release_content oracle limit fuel s).1 id0 = some (some c)) ∧
    (∀ (oracle : String → Option String) (limit : Option Nat) (fuel : Nat) (s : Store)
      (id0 : Nat) (c : String), StoreSorted s →
      rowContent s id0 = some (some c) →
      id0 ∉ (update_press_release_content oracle limit fuel s).2.2.2) := by
  refine ⟨fun s r id0 c hs h => rowContent_insertRow s r id0 c hs h,
    fun oracle limit fuel s id0 c hs h =>
      (backfill_loop_preserve oracle limit id0 c fuel s 0 0 [] hs h).1,
    fun oracle limit fuel s id0 c hs h =>
      (backfill_loop_preserve oracle limit id0 c fuel s 0 0 [] hs h).2
        (List.not_mem_nil id0)⟩

/-- C7 witness: a populated row keeps its content through a duplicate upsert
and through a backfill run, and is never visited by that run. -/
theorem content_monotonicity_witness :
    rowContent (insertRow ⟨7, "u2", "B", "d", none⟩
      [⟨7, "u1", "A", "d", some "kept"⟩]) 7 = some (some "kept") ∧
    rowContent (update_press_release_content (fun _ => some "new") none 3
      [⟨7, "u1", "A", "d", some "kept"⟩]).1 7 = some (some "kept") :=
  ⟨content_monotonicity.1 [⟨7, "u1", "A", "d", some "kept"⟩] ⟨7, "u2", "B", "d", none⟩ 7 "kept"
      (by decide) (by decide),
    content_monotonicity.2.1 (fun _ => some "new") none 3 [⟨7, "u1", "A", "d", some "kept"⟩]
      7 "kept" (by decide) (by decide)⟩
